import Mathlib

/-!
Verification of the permission-propagation engine in
`src/components/datarooms/groups/group-permissions.tsx`.

The tree type, the tree builder, the edit/propagation engine, the diff
collector and the save handler are embedded as executable Lean functions,
translated from the TypeScript source.  The optional `subItems` field of
the source (`subItems?: FileOrFolder[]`) is modelled as a plain list with
`undefined ≡ []`: every engine function treats a missing list and an empty
list identically (`item.subItems || []`, `item.subItems ? ... : []`,
`item.subItems ? ... : undefined`, skipped recursion on a falsy value),
so the two representations are observationally equivalent.  The optional
`partialView` permission flag is modelled as a plain `Bool` (`undefined ≡
false`); the engine overwrites all three permission fields whenever it
touches a node's permissions, so the optionality is never observable.
-/

/-- Permission state of one node: `{ view, download, partialView? }`. -/
structure Perms where
  view : Bool
  download : Bool
  partialView : Bool
deriving DecidableEq, Repr

/-- The `ItemType` enum from `@prisma/client`, restricted to the two values used. -/
inductive ItemType where
  | DATAROOM_FOLDER
  | DATAROOM_DOCUMENT
deriving DecidableEq, Repr

/-- The `FileOrFolder` node type of the source (lines 42–53): id, name,
children, permission state, item type and an optional document reference. -/
inductive FileOrFolder : Type where
  | node (id : String) (name : String) (subItems : List FileOrFolder)
      (permissions : Perms) (itemType : ItemType) (documentId : Option String)
deriving Repr

def FileOrFolder.id : FileOrFolder → String
  | .node i _ _ _ _ _ => i

def FileOrFolder.name : FileOrFolder → String
  | .node _ n _ _ _ _ => n

def FileOrFolder.subItems : FileOrFolder → List FileOrFolder
  | .node _ _ s _ _ _ => s

def FileOrFolder.permissions : FileOrFolder → Perms
  | .node _ _ _ p _ _ => p

def FileOrFolder.itemType : FileOrFolder → ItemType
  | .node _ _ _ _ t _ => t

def FileOrFolder.documentId : FileOrFolder → Option String
  | .node _ _ _ _ _ d => d

/-- The requested `{view, download}` pair of an edit. -/
structure Flags where
  view : Bool
  download : Bool
deriving DecidableEq, Repr

/-- One pending-change entry, the values stored per item id in
`pendingChanges` (type `ItemPermission`, lines 55–63). -/
structure PendingEntry where
  view : Bool
  download : Bool
  itemType : ItemType
deriving DecidableEq, Repr

mutual
/-- All nodes of a subtree rooted at one node (the node itself first,
then the nodes of its children, depth first, in order). -/
def allNodesOne : FileOrFolder → List FileOrFolder
  | .node i n subs p t d => .node i n subs p t d :: allNodesList subs
/-- All nodes of a forest, depth first, in order. -/
def allNodesList : List FileOrFolder → List FileOrFolder
  | [] => []
  | x :: xs => allNodesOne x ++ allNodesList xs
end

/-- Predicate: `download ⇒ view` at every node of a forest. -/
def invariantHolds (items : List FileOrFolder) : Bool :=
  (allNodesList items).all (fun q => !q.permissions.download || q.permissions.view)

/-- One record of the access-control store: `{itemId, canView, canDownload}`. -/
structure ViewerGroupAccessControls where
  itemId : String
  canView : Bool
  canDownload : Bool
deriving DecidableEq, Repr

/-- The `{id, name}` pair carried in a record's `document` field. -/
structure DataroomDocument where
  id : String
  name : String
deriving DecidableEq, Repr

/-- One entry of a folder record's `documents` array. -/
structure FolderDocumentEntry where
  id : String
  document : DataroomDocument
deriving DecidableEq, Repr

/-- One flat input record handed to `buildTree` (folder or document). -/
structure RawItem where
  id : String
  name : String
  parentId : Option String
  folderId : Option String
  document : Option DataroomDocument
  documents : List FolderDocumentEntry
deriving DecidableEq, Repr

/-- Function `getPermissions` from `buildTree` (lines 164–171): look an item id up in
the override list; absent entries default to `{view: false, download: false}`;
`partialView` starts out `false`. -/
def getPermissions (permissions : List ViewerGroupAccessControls) (id : String) : Perms :=
  match permissions.find? (fun p => p.itemId == id) with
  | some permission =>
    { view := permission.canView, download := permission.canDownload, partialView := false }
  | none => { view := false, download := false, partialView := false }

def emptyStr : String := ""

/-- Function `buildTree` (lines 159–238).  The source recurses on `parentId` linkage
over the same flat list; Lean requires a structurally decreasing argument, so
the recursion depth is bounded by an explicit `fuel` parameter (any fuel at
least the tree depth reproduces the source behaviour; all theorems hold for
every fuel).  Folders at the current level are built first (each with its
recursively built sub-folders followed by its direct documents), then the
documents at the current level. -/
def buildTree (fuel : Nat) (items : List RawItem)
    (permissions : List ViewerGroupAccessControls) (parentId : Option String) :
    List FileOrFolder :=
  match fuel with
  | 0 => []
  | fuel + 1 =>
    let folderNodes :=
      (items.filter (fun item => item.parentId == parentId && item.document.isNone)).map
        (fun folder =>
          let subItems := buildTree fuel items permissions (some folder.id)
          let folderDocuments := folder.documents.map (fun doc =>
            FileOrFolder.node doc.id doc.document.name [] (getPermissions permissions doc.id)
              ItemType.DATAROOM_DOCUMENT (some doc.document.id))
          let allSubItems := subItems ++ folderDocuments
          let folderPermissions := getPermissions permissions folder.id
          let someSubItemViewable := allSubItems.any (fun s => s.permissions.view)
          let allSubItemsViewable := allSubItems.all (fun s => s.permissions.view)
          let view1 := folderPermissions.view || someSubItemViewable
          -- second, redundant propagation step of the source (lines 206–209)
          let view2 := view1 || allSubItems.any (fun s => s.permissions.view)
          FileOrFolder.node folder.id folder.name allSubItems
            { view := view2, download := folderPermissions.download,
              partialView := someSubItemViewable && !allSubItemsViewable }
            ItemType.DATAROOM_FOLDER none)
    let documentNodes :=
      (items.filter (fun item =>
          (item.parentId == parentId && item.document.isSome) ||
          (parentId == none && item.folderId == none && item.document.isSome))).map
        (fun doc =>
          let docInfo := doc.document.getD { id := emptyStr, name := emptyStr }
          FileOrFolder.node doc.id docInfo.name [] (getPermissions permissions doc.id)
            ItemType.DATAROOM_DOCUMENT (some docInfo.id))
    folderNodes ++ documentNodes

mutual
/-- Body of `findItemAndParents` (lines 263–281) for a single candidate item:
check the item itself, then search its children with the item appended to the
parent chain. -/
def findInItem (tid : String) (acc : List FileOrFolder) :
    FileOrFolder → Option (FileOrFolder × List FileOrFolder)
  | .node i n subs p t d =>
    if i = tid then some (.node i n subs p t d, acc)
    else findInList tid (acc ++ [.node i n subs p t d]) subs
/-- Function `findItemAndParents` over a list of items: first match wins, search is
depth first in order. -/
def findInList (tid : String) (acc : List FileOrFolder) :
    List FileOrFolder → Option (FileOrFolder × List FileOrFolder)
  | [] => none
  | x :: xs =>
    match findInItem tid acc x with
    | some r => some r
    | none => findInList tid acc xs
end

/-- Entry point `findItemAndParents(items, targetId)` with the empty initial parent list. -/
def findItemAndParents (items : List FileOrFolder) (tid : String) :
    Option (FileOrFolder × List FileOrFolder) :=
  findInList tid [] items

/-- The "special cases" normalization of `updatePermissions` (lines 288–298):
if view is being revoked while the target previously had download, drop
download; otherwise if download is requested without view, force view. -/
def normalizeFlags (requested : Flags) (previousDownload : Bool) : Flags :=
  if !requested.view && previousDownload then { requested with download := false }
  else if requested.download && !requested.view then { requested with view := true }
  else requested

mutual
/-- Function `updateSubItems` (lines 354–370) on one node: overwrite `view` with the
propagated value, force `partialView := false`, gate `download` by the new
view value, and recurse into the children. -/
def updateSubItemsOne (viewState : Bool) : FileOrFolder → FileOrFolder
  | .node i n subs p t d =>
    .node i n (updateSubItemsList viewState subs)
      { view := viewState, download := p.download && viewState, partialView := false } t d
/-- Function `updateSubItems` mapped over a list of children. -/
def updateSubItemsList (viewState : Bool) : List FileOrFolder → List FileOrFolder
  | [] => []
  | x :: xs => updateSubItemsOne viewState x :: updateSubItemsList viewState xs
end

mutual
/-- Function `updateItemInTree` (lines 301–352) on one node: the target gets the
normalized flags (and, if a folder, its whole subtree rewritten via
`updateSubItems`); a node on the parent chain is re-aggregated from its
already-updated children; any other node just recurses. -/
def updateOne (tid : String) (parents : List FileOrFolder) (upd : Flags) :
    FileOrFolder → FileOrFolder
  | .node i n subs p t d =>
    if i = tid then
      let subs' :=
        if t = ItemType.DATAROOM_FOLDER then updateSubItemsList upd.view subs else subs
      .node i n subs' { view := upd.view, download := upd.download, partialView := false } t d
    else if parents.any (fun parent => parent.id == i) then
      let updatedSubItems := updateList tid parents upd subs
      let someSubItemViewable := updatedSubItems.any (fun s => s.permissions.view)
      let allSubItemsViewable := updatedSubItems.all (fun s => s.permissions.view)
      .node i n updatedSubItems
        { view := someSubItemViewable,
          download := p.download && someSubItemViewable,
          partialView := someSubItemViewable && !allSubItemsViewable } t d
    else
      .node i n (updateList tid parents upd subs) p t d
/-- Function `updateItemInTree` over a list of items (`items.map(...)`). -/
def updateList (tid : String) (parents : List FileOrFolder) (upd : Flags) :
    List FileOrFolder → List FileOrFolder
  | [] => []
  | x :: xs => updateOne tid parents upd x :: updateList tid parents upd xs
end

mutual
/-- Function `collectSubItemChanges` (lines 388–400) on one subitem: emit an entry with
the propagated view and the gated download, then recurse. -/
def collectSubOne (upd : Flags) : FileOrFolder → List (String × PendingEntry)
  | .node i _ subs p t _ =>
    (i, { view := upd.view, download := p.download && upd.view, itemType := t }) ::
      collectSubList upd subs
/-- Function `collectSubItemChanges` over a list of subitems. -/
def collectSubList (upd : Flags) : List FileOrFolder → List (String × PendingEntry)
  | [] => []
  | x :: xs => collectSubOne upd x ++ collectSubList upd xs
end

/-- Function `collectChanges` (lines 375–432): always an entry for the target, then one
per descendant, then one per parent — parents in root-to-leaf order when the
new view is on, in leaf-to-root order (with re-aggregated values) when it is
off.  The JS object keyed by id is modelled as an association list; with
unique ids no key is written twice. -/
def collectChanges (upd : Flags) (item : FileOrFolder) (parents : List FileOrFolder) :
    List (String × PendingEntry) :=
  (item.id, { view := upd.view, download := upd.download, itemType := item.itemType }) ::
  collectSubList upd item.subItems ++
  (if upd.view then
    parents.map (fun parent =>
      (parent.id,
        ({ view := true, download := parent.permissions.download,
           itemType := parent.itemType } : PendingEntry)))
  else
    parents.reverse.map (fun parent =>
      let someSubItemViewable := parent.subItems.any (fun s =>
        if s.id = item.id then upd.view else s.permissions.view)
      (parent.id,
        ({ view := someSubItemViewable,
           download := parent.permissions.download && someSubItemViewable,
           itemType := parent.itemType } : PendingEntry))))

/-- One full edit of `updatePermissions` (lines 261–440) at the flag level:
find the target and its parent chain (`none` = the source's silent early
return when the id is absent), normalize the requested flags against the
target's previous download, rewrite the tree, and collect the diff. -/
def applyEdit (data : List FileOrFolder) (id : String) (requested : Flags) :
    Option (List FileOrFolder × List (String × PendingEntry)) :=
  match findItemAndParents data id with
  | none => none
  | some (item, parents) =>
    let updatedPermissions := normalizeFlags requested item.permissions.download
    some (updateList id parents updatedPermissions data,
      collectChanges updatedPermissions item parents)

def viewKey : String := "view"

def downloadKey : String := "download"

/-- Handler `updatePermissions(id, newPermissions)` as called from the toggle group:
the requested pair is decoded from the string list via `includes`. -/
def updatePermissions (data : List FileOrFolder) (id : String)
    (newPermissions : List String) :
    Option (List FileOrFolder × List (String × PendingEntry)) :=
  applyEdit data id
    { view := newPermissions.contains viewKey, download := newPermissions.contains downloadKey }

/-- Function `saveChanges` (lines 451–486) as a state transition on the pending map:
on a successful response the pending map is reset to `{}` (and a success
notice shown); on failure the handler only shows an error notice — the
pending map is left exactly as it was (the flushed entries were never removed
from it) and no retry is issued. The Boolean result is `true` iff the
success path ran. -/
def saveChanges (responseOk : Bool) (pending : List (String × PendingEntry)) :
    List (String × PendingEntry) × Bool :=
  if responseOk then ([], true) else (pending, false)

/-- The ancestor chain as found by `findItemAndParents`: `AncestorChain it ps
items` states that following `ps` (outermost ancestor first) from the forest
`items` leads to the node `it`. -/
def AncestorChain (it : FileOrFolder) : List FileOrFolder → List FileOrFolder → Prop
  | [], items => it ∈ items
  | p :: rest, items => p ∈ items ∧ AncestorChain it rest p.subItems

/-- Everything of a node except its permission fields. -/
inductive Skeleton : Type where
  | node (id : String) (name : String) (itemType : ItemType)
      (documentId : Option String) (children : List Skeleton)
deriving Repr

mutual
/-- Erase the permission fields of a subtree. -/
def skelOne : FileOrFolder → Skeleton
  | .node i n subs _ t d => .node i n t d (skelList subs)
/-- Erase the permission fields of a forest. -/
def skelList : List FileOrFolder → List Skeleton
  | [] => []
  | x :: xs => skelOne x :: skelList xs
end

/- Concrete fixtures used by witnesses and counterexamples. -/

def docA : FileOrFolder :=
  .node ("a") ("Doc A") [] ⟨true, false, false⟩ .DATAROOM_DOCUMENT (some ("da"))

/-- A node violating `download ⇒ view`, as the builder can produce from an
override `{canView: false, canDownload: true}`. -/
def docBbad : FileOrFolder :=
  .node ("b") ("Doc B") [] ⟨false, true, false⟩ .DATAROOM_DOCUMENT (some ("db"))

def treeSingle : List FileOrFolder := [docA]

def treeBad : List FileOrFolder := [docA, docBbad]

def docC : FileOrFolder :=
  .node ("c") ("Doc C") [] ⟨true, true, false⟩ .DATAROOM_DOCUMENT (some ("dc"))

def folderF : FileOrFolder :=
  .node ("f") ("Folder F") [docC] ⟨true, true, false⟩ .DATAROOM_FOLDER none

def treeNested : List FileOrFolder := [folderF]

def aKey : String := "a"

def pendA : PendingEntry := ⟨true, false, .DATAROOM_DOCUMENT⟩

def rawDocOne : DataroomDocument := ⟨("doc1"), ("Doc One")⟩

def rawDocTwo : DataroomDocument := ⟨("doc2"), ("Doc Two")⟩

def rawFolder : RawItem :=
  { id := ("f1"), name := ("F1"), parentId := none, folderId := none,
    document := none, documents := [⟨("e1"), rawDocOne⟩] }

def rawRootDoc : RawItem :=
  { id := ("r1"), name := ("ignored"), parentId := none, folderId := none,
    document := some rawDocTwo, documents := [] }

def rawItems : List RawItem := [rawFolder, rawRootDoc]

def permsFixture : List ViewerGroupAccessControls := [⟨("e1"), true, false⟩]

def cKey : String := "c"

def fKey : String := "f"

def zKey : String := "z"

/-- The folder node `buildTree 2 rawItems permsFixture none` produces. -/
def builtFolderNode : FileOrFolder :=
  .node ("f1") ("F1")
    [.node ("e1") ("Doc One") [] ⟨true, false, false⟩ .DATAROOM_DOCUMENT (some ("doc1"))]
    ⟨true, false, false⟩ .DATAROOM_FOLDER none

/-- The root document node `buildTree 2 rawItems permsFixture none` produces. -/
def builtRootDoc : FileOrFolder :=
  .node ("r1") ("Doc Two") [] ⟨false, false, false⟩ .DATAROOM_DOCUMENT (some ("doc2"))

/-! ### Basic lemmas about the node enumeration -/

theorem allNodesOne_eq (x : FileOrFolder) :
    allNodesOne x = x :: allNodesList x.subItems := by
  cases x
  rfl

theorem allNodesList_append (xs ys : List FileOrFolder) :
    allNodesList (xs ++ ys) = allNodesList xs ++ allNodesList ys := by
  induction xs with
  | nil => rfl
  | cons x xs ih =>
    show allNodesOne x ++ allNodesList (xs ++ ys) = (allNodesOne x ++ allNodesList xs) ++ _
    rw [ih, List.append_assoc]

theorem mem_allNodesList_iff {q : FileOrFolder} {l : List FileOrFolder} :
    q ∈ allNodesList l ↔ ∃ x ∈ l, q ∈ allNodesOne x := by
  induction l with
  | nil => simp [allNodesList]
  | cons x xs ih =>
    show q ∈ allNodesOne x ++ allNodesList xs ↔ _
    rw [List.mem_append, ih]
    constructor
    · rintro (h | ⟨y, hy, hq⟩)
      · exact ⟨x, List.mem_cons_self _ _, h⟩
      · exact ⟨y, List.mem_cons_of_mem _ hy, hq⟩
    · rintro ⟨y, hy, hq⟩
      rcases List.mem_cons.mp hy with rfl | hy
      · exact Or.inl hq
      · exact Or.inr ⟨y, hy, hq⟩

theorem self_mem_allNodesOne (x : FileOrFolder) : x ∈ allNodesOne x := by
  rw [allNodesOne_eq]
  exact List.mem_cons_self _ _

theorem mem_allNodesList_of_mem {x : FileOrFolder} {l : List FileOrFolder} (h : x ∈ l) :
    x ∈ allNodesList l :=
  mem_allNodesList_iff.mpr ⟨x, h, self_mem_allNodesOne x⟩

theorem sub_mem_allNodesList {c q : FileOrFolder} {l : List FileOrFolder}
    (hc : c ∈ l) (hq : q ∈ allNodesOne c) : q ∈ allNodesList l :=
  mem_allNodesList_iff.mpr ⟨c, hc, hq⟩

theorem mem_allNodesOne_of_sub {x q : FileOrFolder} (h : q ∈ allNodesList x.subItems) :
    q ∈ allNodesOne x := by
  rw [allNodesOne_eq]
  exact List.mem_cons_of_mem _ h

mutual
theorem count_le_one : ∀ (x q : FileOrFolder), q ∈ allNodesOne x →
    (allNodesOne q).length ≤ (allNodesOne x).length
  | .node i n subs p t d, q => by
    intro h
    rw [allNodesOne_eq] at h
    rcases List.mem_cons.mp h with rfl | h
    · exact le_rfl
    · have hle := count_le_list subs q h
      have hx : allNodesOne (FileOrFolder.node i n subs p t d) =
          FileOrFolder.node i n subs p t d :: allNodesList subs := rfl
      rw [hx]
      simp only [List.length_cons]
      omega
theorem count_le_list : ∀ (l : List FileOrFolder) (q : FileOrFolder), q ∈ allNodesList l →
    (allNodesOne q).length ≤ (allNodesList l).length
  | [], q => by
    intro h
    simp [allNodesList] at h
  | x :: xs, q => by
    intro h
    have hsplit : allNodesList (x :: xs) = allNodesOne x ++ allNodesList xs := rfl
    rw [hsplit] at h ⊢
    rcases List.mem_append.mp h with h | h
    · have := count_le_one x q h
      simp only [List.length_append]
      omega
    · have := count_le_list xs q h
      simp only [List.length_append]
      omega
end

theorem count_lt_sub {x q : FileOrFolder} (h : q ∈ allNodesList x.subItems) :
    (allNodesOne q).length < (allNodesOne x).length := by
  have := count_le_list _ _ h
  rw [allNodesOne_eq x]
  simp only [List.length_cons]
  omega

theorem not_mem_own_sub (x : FileOrFolder) : x ∉ allNodesList x.subItems := fun h =>
  absurd (count_lt_sub h) (lt_irrefl _)

/-! ### Map characterizations and field preservation -/

theorem updateList_eq_map (tid : String) (P : List FileOrFolder) (upd : Flags)
    (l : List FileOrFolder) : updateList tid P upd l = l.map (updateOne tid P upd) := by
  induction l with
  | nil => rfl
  | cons x xs ih =>
    show updateOne tid P upd x :: updateList tid P upd xs = _
    rw [ih, List.map_cons]

theorem updateSubItemsList_eq_map (v : Bool) (l : List FileOrFolder) :
    updateSubItemsList v l = l.map (updateSubItemsOne v) := by
  induction l with
  | nil => rfl
  | cons x xs ih =>
    show updateSubItemsOne v x :: updateSubItemsList v xs = _
    rw [ih, List.map_cons]

theorem updateSubItemsOne_id (v : Bool) (x : FileOrFolder) :
    (updateSubItemsOne v x).id = x.id := by
  cases x
  rfl

theorem updateSubItemsOne_perms (v : Bool) (x : FileOrFolder) :
    (updateSubItemsOne v x).permissions =
      ⟨v, x.permissions.download && v, false⟩ := by
  cases x
  rfl

theorem updateSubItemsOne_sub (v : Bool) (x : FileOrFolder) :
    (updateSubItemsOne v x).subItems = updateSubItemsList v x.subItems := by
  cases x
  rfl

theorem updateOne_target {x : FileOrFolder} (tid : String) (P : List FileOrFolder)
    (upd : Flags) (h : x.id = tid) :
    updateOne tid P upd x =
      .node x.id x.name
        (if x.itemType = ItemType.DATAROOM_FOLDER then updateSubItemsList upd.view x.subItems
         else x.subItems)
        ⟨upd.view, upd.download, false⟩ x.itemType x.documentId := by
  cases x with
  | node i n subs p t d =>
    simp only [FileOrFolder.id] at h
    simp only [updateOne, FileOrFolder.id, FileOrFolder.name, FileOrFolder.subItems,
      FileOrFolder.itemType, FileOrFolder.documentId, if_pos h]

theorem updateOne_parent {x : FileOrFolder} (tid : String) (P : List FileOrFolder)
    (upd : Flags) (h1 : ¬x.id = tid) (h2 : P.any (fun parent => parent.id == x.id) = true) :
    updateOne tid P upd x =
      .node x.id x.name (updateList tid P upd x.subItems)
        ⟨(updateList tid P upd x.subItems).any (fun s => s.permissions.view),
          x.permissions.download &&
            (updateList tid P upd x.subItems).any (fun s => s.permissions.view),
          (updateList tid P upd x.subItems).any (fun s => s.permissions.view) &&
            !((updateList tid P upd x.subItems).all (fun s => s.permissions.view))⟩
        x.itemType x.documentId := by
  cases x with
  | node i n subs p t d =>
    simp only [FileOrFolder.id] at h1 h2
    simp only [updateOne, FileOrFolder.id, FileOrFolder.name, FileOrFolder.subItems,
      FileOrFolder.permissions, FileOrFolder.itemType, FileOrFolder.documentId,
      if_neg h1, h2, if_pos]

theorem updateOne_other {x : FileOrFolder} (tid : String) (P : List FileOrFolder)
    (upd : Flags) (h1 : ¬x.id = tid) (h2 : P.any (fun parent => parent.id == x.id) = false) :
    updateOne tid P upd x =
      .node x.id x.name (updateList tid P upd x.subItems) x.permissions
        x.itemType x.documentId := by
  cases x with
  | node i n subs p t d =>
    simp only [FileOrFolder.id] at h1 h2
    simp only [updateOne, FileOrFolder.id, FileOrFolder.name, FileOrFolder.subItems,
      FileOrFolder.permissions, FileOrFolder.itemType, FileOrFolder.documentId,
      if_neg h1, h2, Bool.false_eq_true, if_neg, not_false_eq_true]

theorem updateOne_id (tid : String) (P : List FileOrFolder) (upd : Flags)
    (x : FileOrFolder) : (updateOne tid P upd x).id = x.id := by
  by_cases h1 : x.id = tid
  · rw [updateOne_target tid P upd h1]
    rfl
  · by_cases h2 : P.any (fun parent => parent.id == x.id) = true
    · rw [updateOne_parent tid P upd h1 h2]
      rfl
    · rw [updateOne_other tid P upd h1 (Bool.not_eq_true _ ▸ h2)]
      rfl

mutual
theorem allNodes_usiOne (v : Bool) : ∀ (x : FileOrFolder),
    allNodesOne (updateSubItemsOne v x) = (allNodesOne x).map (updateSubItemsOne v)
  | .node i n subs p t d => by
    show updateSubItemsOne v (.node i n subs p t d) :: allNodesList (updateSubItemsList v subs) = _
    rw [allNodes_usiList v subs]
    rfl
theorem allNodes_usiList (v : Bool) : ∀ (l : List FileOrFolder),
    allNodesList (updateSubItemsList v l) = (allNodesList l).map (updateSubItemsOne v)
  | [] => rfl
  | x :: xs => by
    show allNodesOne (updateSubItemsOne v x) ++ allNodesList (updateSubItemsList v xs) = _
    rw [allNodes_usiOne v x, allNodes_usiList v xs]
    show _ = (allNodesOne x ++ allNodesList xs).map _
    rw [List.map_append]
end

/-! ### Provenance of nodes of the updated tree -/

theorem mem_updateOne_provenance (tid : String) (P : List FileOrFolder) (upd : Flags) :
    ∀ (N : Nat) (x : FileOrFolder), (allNodesOne x).length ≤ N →
    ∀ q ∈ allNodesOne (updateOne tid P upd x),
    (∃ x' ∈ allNodesOne x, q = updateOne tid P upd x') ∨
    (∃ y ∈ allNodesOne x, y.id = tid ∧
      ∃ x' ∈ allNodesList y.subItems, (q = updateSubItemsOne upd.view x' ∨ q = x')) := by
  intro N
  induction N with
  | zero =>
    intro x hx
    exfalso
    cases x with
    | node i n subs p t d =>
      have : allNodesOne (FileOrFolder.node i n subs p t d) =
          FileOrFolder.node i n subs p t d :: allNodesList subs := rfl
      rw [this] at hx
      simp at hx
  | succ N ih =>
    intro x hx q hq
    by_cases h1 : x.id = tid
    · rw [updateOne_target tid P upd h1, allNodesOne_eq] at hq
      rcases List.mem_cons.mp hq with rfl | hq
      · exact Or.inl ⟨x, self_mem_allNodesOne x, (updateOne_target tid P upd h1).symm⟩
      · by_cases ht : x.itemType = ItemType.DATAROOM_FOLDER
        · rw [show (FileOrFolder.node x.id x.name
              (if x.itemType = ItemType.DATAROOM_FOLDER then
                updateSubItemsList upd.view x.subItems else x.subItems)
              ⟨upd.view, upd.download, false⟩ x.itemType x.documentId).subItems =
              (if x.itemType = ItemType.DATAROOM_FOLDER then
                updateSubItemsList upd.view x.subItems else x.subItems) from rfl,
            if_pos ht, allNodes_usiList] at hq
          obtain ⟨x', hx', rfl⟩ := List.mem_map.mp hq
          exact Or.inr ⟨x, self_mem_allNodesOne x, h1, x', hx', Or.inl rfl⟩
        · rw [show (FileOrFolder.node x.id x.name
              (if x.itemType = ItemType.DATAROOM_FOLDER then
                updateSubItemsList upd.view x.subItems else x.subItems)
              ⟨upd.view, upd.download, false⟩ x.itemType x.documentId).subItems =
              (if x.itemType = ItemType.DATAROOM_FOLDER then
                updateSubItemsList upd.view x.subItems else x.subItems) from rfl,
            if_neg ht] at hq
          exact Or.inr ⟨x, self_mem_allNodesOne x, h1, q, hq, Or.inr rfl⟩
    · have hsub : ∀ q ∈ allNodesList (updateList tid P upd x.subItems),
          (∃ x' ∈ allNodesOne x, q = updateOne tid P upd x') ∨
          (∃ y ∈ allNodesOne x, y.id = tid ∧
            ∃ x' ∈ allNodesList y.subItems, (q = updateSubItemsOne upd.view x' ∨ q = x')) := by
        intro q hq
        rw [updateList_eq_map] at hq
        obtain ⟨c', hc', hq⟩ := mem_allNodesList_iff.mp hq
        obtain ⟨c, hc, rfl⟩ := List.mem_map.mp hc'
        have hcN : (allNodesOne c).length ≤ N := by
          have h1 := count_le_list _ _ (mem_allNodesList_of_mem hc)
          have h2 : allNodesOne x = x :: allNodesList x.subItems := allNodesOne_eq x
          have h3 : (allNodesOne x).length = 1 + (allNodesList x.subItems).length := by
            rw [h2]
            simp only [List.length_cons]
            omega
          omega
        rcases ih c hcN q hq with ⟨x', hx', hq⟩ | ⟨y, hy, hyt, x', hx', hq⟩
        · exact Or.inl ⟨x', mem_allNodesOne_of_sub (sub_mem_allNodesList hc hx'), hq⟩
        · exact Or.inr ⟨y, mem_allNodesOne_of_sub (sub_mem_allNodesList hc hy), hyt, x', hx', hq⟩
      by_cases h2 : P.any (fun parent => parent.id == x.id) = true
      · rw [updateOne_parent tid P upd h1 h2, allNodesOne_eq] at hq
        rcases List.mem_cons.mp hq with rfl | hq
        · exact Or.inl ⟨x, self_mem_allNodesOne x, (updateOne_parent tid P upd h1 h2).symm⟩
        · exact hsub q hq
      · rw [updateOne_other tid P upd h1 (Bool.not_eq_true _ ▸ h2), allNodesOne_eq] at hq
        rcases List.mem_cons.mp hq with rfl | hq
        · exact Or.inl ⟨x, self_mem_allNodesOne x,
            (updateOne_other tid P upd h1 (Bool.not_eq_true _ ▸ h2)).symm⟩
        · exact hsub q hq

theorem mem_updateList_provenance (tid : String) (P : List FileOrFolder) (upd : Flags)
    (l : List FileOrFolder) :
    ∀ q ∈ allNodesList (updateList tid P upd l),
    (∃ x' ∈ allNodesList l, q = updateOne tid P upd x') ∨
    (∃ y ∈ allNodesList l, y.id = tid ∧
      ∃ x' ∈ allNodesList y.subItems, (q = updateSubItemsOne upd.view x' ∨ q = x')) := by
  intro q hq
  rw [updateList_eq_map] at hq
  obtain ⟨c', hc', hq⟩ := mem_allNodesList_iff.mp hq
  obtain ⟨c, hc, rfl⟩ := List.mem_map.mp hc'
  rcases mem_updateOne_provenance tid P upd (allNodesOne c).length c le_rfl q hq with
    ⟨x', hx', hq⟩ | ⟨y, hy, hyt, x', hx', hq⟩
  · exact Or.inl ⟨x', sub_mem_allNodesList hc hx', hq⟩
  · exact Or.inr ⟨y, sub_mem_allNodesList hc hy, hyt, x', hx', hq⟩

/-! ### Soundness and completeness of `findItemAndParents` -/

theorem ancestorChain_cons {it x : FileOrFolder} {ps l : List FileOrFolder}
    (h : AncestorChain it ps l) : AncestorChain it ps (x :: l) := by
  cases ps with
  | nil => exact List.mem_cons_of_mem _ h
  | cons p rest => exact ⟨List.mem_cons_of_mem _ h.1, h.2⟩

mutual
theorem findInItem_sound (tid : String) : ∀ (x : FileOrFolder) (acc : List FileOrFolder)
    (it : FileOrFolder) (ps : List FileOrFolder), findInItem tid acc x = some (it, ps) →
    it.id = tid ∧ ((ps = acc ∧ it = x) ∨
      ∃ ps', ps = acc ++ x :: ps' ∧ AncestorChain it ps' x.subItems)
  | .node i n subs p t d, acc, it, ps => by
    intro h
    rw [findInItem] at h
    by_cases hi : i = tid
    · rw [if_pos hi] at h
      simp only [Option.some.injEq, Prod.mk.injEq] at h
      obtain ⟨h1, h2⟩ := h
      subst h1
      subst h2
      exact ⟨hi, Or.inl ⟨rfl, rfl⟩⟩
    · rw [if_neg hi] at h
      obtain ⟨hid, ps', hps, hch⟩ := findInList_sound tid subs _ it ps h
      refine ⟨hid, Or.inr ⟨ps', ?_, hch⟩⟩
      rw [hps, List.append_assoc]
      rfl
theorem findInList_sound (tid : String) : ∀ (l : List FileOrFolder) (acc : List FileOrFolder)
    (it : FileOrFolder) (ps : List FileOrFolder), findInList tid acc l = some (it, ps) →
    it.id = tid ∧ ∃ ps', ps = acc ++ ps' ∧ AncestorChain it ps' l
  | [], acc, it, ps => by
    intro h
    rw [findInList] at h
    exact absurd h (by simp)
  | x :: xs, acc, it, ps => by
    intro h
    rw [findInList] at h
    cases hfi : findInItem tid acc x with
    | some r =>
      rw [hfi] at h
      injection h with h
      subst h
      obtain ⟨hid, hcase⟩ := findInItem_sound tid x acc it ps hfi
      refine ⟨hid, ?_⟩
      rcases hcase with ⟨rfl, rfl⟩ | ⟨ps', rfl, hch⟩
      · exact ⟨[], by simp, List.mem_cons_self _ _⟩
      · exact ⟨x :: ps', rfl, List.mem_cons_self _ _, hch⟩
    | none =>
      rw [hfi] at h
      obtain ⟨hid, ps', hps, hch⟩ := findInList_sound tid xs acc it ps h
      exact ⟨hid, ps', hps, ancestorChain_cons hch⟩
end

mutual
theorem findInItem_none_iff (tid : String) : ∀ (x : FileOrFolder) (acc : List FileOrFolder),
    findInItem tid acc x = none ↔ ∀ q ∈ allNodesOne x, ¬q.id = tid
  | .node i n subs p t d, acc => by
    rw [findInItem, allNodesOne_eq]
    by_cases hi : i = tid
    · rw [if_pos hi]
      refine iff_of_false (by simp) ?_
      intro hall
      exact hall _ (List.mem_cons_self _ _) hi
    · rw [if_neg hi]
      rw [findInList_none_iff tid subs _]
      constructor
      · intro h q hq
        rcases List.mem_cons.mp hq with rfl | hq
        · exact hi
        · exact h q hq
      · intro h q hq
        exact h q (List.mem_cons_of_mem _ hq)
theorem findInList_none_iff (tid : String) : ∀ (l : List FileOrFolder)
    (acc : List FileOrFolder),
    findInList tid acc l = none ↔ ∀ q ∈ allNodesList l, ¬q.id = tid
  | [], acc => by
    rw [findInList]
    simp [allNodesList]
  | x :: xs, acc => by
    rw [findInList]
    cases hfi : findInItem tid acc x with
    | some r =>
      refine iff_of_false (by simp) ?_
      intro hall
      have hnone : findInItem tid acc x = none :=
        (findInItem_none_iff tid x acc).mpr (fun q hq =>
          hall q (sub_mem_allNodesList (List.mem_cons_self _ _) hq))
      rw [hfi] at hnone
      exact absurd hnone (by simp)
    | none =>
      rw [findInList_none_iff tid xs acc]
      have hx := (findInItem_none_iff tid x acc).mp hfi
      constructor
      · intro h q hq
        rcases mem_allNodesList_iff.mp hq with ⟨c, hc, hqc⟩
        rcases List.mem_cons.mp hc with rfl | hc
        · exact hx q hqc
        · exact h q (sub_mem_allNodesList hc hqc)
      · intro h q hq
        refine h q ?_
        have hshape : allNodesList (x :: xs) = allNodesOne x ++ allNodesList xs := rfl
        rw [hshape]
        exact List.mem_append.mpr (Or.inr hq)
end

/-! ### Ancestor-chain lemmas -/

theorem chain_mem_it {it : FileOrFolder} : ∀ {ps l : List FileOrFolder},
    AncestorChain it ps l → it ∈ allNodesList l := by
  intro ps
  induction ps with
  | nil => exact fun h => mem_allNodesList_of_mem h
  | cons p rest ih =>
    intro l h
    exact sub_mem_allNodesList h.1 (mem_allNodesOne_of_sub (ih h.2))

theorem chain_mem_parent {it p : FileOrFolder} : ∀ {ps l : List FileOrFolder},
    AncestorChain it ps l → p ∈ ps → p ∈ allNodesList l := by
  intro ps
  induction ps with
  | nil => intro l _ hp; simp at hp
  | cons p0 rest ih =>
    intro l h hp
    rcases List.mem_cons.mp hp with rfl | hp
    · exact mem_allNodesList_of_mem h.1
    · exact sub_mem_allNodesList h.1 (mem_allNodesOne_of_sub (ih h.2 hp))

theorem chain_count {it p : FileOrFolder} : ∀ {ps l : List FileOrFolder},
    AncestorChain it ps l → p ∈ ps →
    (allNodesOne it).length < (allNodesOne p).length := by
  intro ps
  induction ps with
  | nil => intro l _ hp; simp at hp
  | cons p0 rest ih =>
    intro l h hp
    rcases List.mem_cons.mp hp with rfl | hp
    · exact count_lt_sub (chain_mem_it h.2)
    · exact ih h.2 hp

/-- Distinct ids identify nodes: in a forest whose node-id list has no
duplicates, two nodes with the same id are the same node. -/
theorem nodup_nodes_inj {l : List FileOrFolder} {a b : FileOrFolder}
    (hnd : List.Nodup ((allNodesList l).map FileOrFolder.id))
    (ha : a ∈ allNodesList l) (hb : b ∈ allNodesList l) (heq : a.id = b.id) : a = b :=
  List.inj_on_of_nodup_map hnd ha hb heq

/-! ### Skeleton preservation -/

mutual
theorem skel_usiOne (v : Bool) : ∀ (x : FileOrFolder),
    skelOne (updateSubItemsOne v x) = skelOne x
  | .node i n subs p t d => by
    show Skeleton.node i n t d (skelList (updateSubItemsList v subs)) = _
    rw [skel_usiList v subs]
    rfl
theorem skel_usiList (v : Bool) : ∀ (l : List FileOrFolder),
    skelList (updateSubItemsList v l) = skelList l
  | [] => rfl
  | x :: xs => by
    show skelOne (updateSubItemsOne v x) :: skelList (updateSubItemsList v xs) = _
    rw [skel_usiOne v x, skel_usiList v xs]
    rfl
end

mutual
theorem skel_updateOne (tid : String) (P : List FileOrFolder) (upd : Flags) :
    ∀ (x : FileOrFolder), skelOne (updateOne tid P upd x) = skelOne x
  | .node i n subs p t d => by
    rw [updateOne]
    by_cases hi : i = tid
    · rw [if_pos hi]
      by_cases ht : t = ItemType.DATAROOM_FOLDER
      · rw [if_pos ht]
        show Skeleton.node i n t d (skelList (updateSubItemsList upd.view subs)) = _
        rw [skel_usiList]
        rfl
      · rw [if_neg ht]
        rfl
    · rw [if_neg hi]
      by_cases hp : (P.any fun parent => parent.id == i) = true
      · rw [if_pos hp]
        show Skeleton.node i n t d (skelList (updateList tid P upd subs)) = _
        rw [skel_updateList tid P upd subs]
        rfl
      · rw [if_neg hp]
        show Skeleton.node i n t d (skelList (updateList tid P upd subs)) = _
        rw [skel_updateList tid P upd subs]
        rfl
theorem skel_updateList (tid : String) (P : List FileOrFolder) (upd : Flags) :
    ∀ (l : List FileOrFolder), skelList (updateList tid P upd l) = skelList l
  | [] => rfl
  | x :: xs => by
    show skelOne (updateOne tid P upd x) :: skelList (updateList tid P upd xs) = _
    rw [skel_updateOne tid P upd x, skel_updateList tid P upd xs]
    rfl
end

/-! ### Invariant lemmas -/

theorem normalizeFlags_ok : ∀ (v dl pd : Bool),
    (!(normalizeFlags ⟨v, dl⟩ pd).download || (normalizeFlags ⟨v, dl⟩ pd).view) = true := by
  decide

theorem invariant_mem {l : List FileOrFolder} (h : invariantHolds l = true)
    {q : FileOrFolder} (hq : q ∈ allNodesList l) :
    (!q.permissions.download || q.permissions.view) = true := by
  rw [invariantHolds, List.all_eq_true] at h
  exact h q hq

/-! ### Diff keys -/

mutual
theorem collectSubOne_keys (upd : Flags) : ∀ (x : FileOrFolder),
    (collectSubOne upd x).map Prod.fst = (allNodesOne x).map FileOrFolder.id
  | .node i n subs p t d => by
    show i :: (collectSubList upd subs).map Prod.fst = _
    rw [collectSubList_keys upd subs]
    rfl
theorem collectSubList_keys (upd : Flags) : ∀ (l : List FileOrFolder),
    (collectSubList upd l).map Prod.fst = (allNodesList l).map FileOrFolder.id
  | [] => rfl
  | x :: xs => by
    have hshape : collectSubList upd (x :: xs) = collectSubOne upd x ++ collectSubList upd xs := rfl
    rw [hshape, List.map_append, collectSubOne_keys upd x, collectSubList_keys upd xs]
    have hshape2 : allNodesList (x :: xs) = allNodesOne x ++ allNodesList xs := rfl
    rw [hshape2, List.map_append]
end

/-! ### Upward view propagation along the ancestor chain -/

theorem chain_view_true (tid : String) (P : List FileOrFolder) (upd : Flags)
    (it : FileOrFolder) (hit : it.id = tid) (hv : upd.view = true) :
    ∀ (ps l : List FileOrFolder), AncestorChain it ps l →
    (∀ p ∈ ps, ¬p.id = tid ∧ (P.any fun parent => parent.id == p.id) = true) →
    ((updateList tid P upd l).any (fun s => s.permissions.view) = true ∧
      ∀ p ∈ ps, (updateOne tid P upd p).permissions.view = true) := by
  intro ps
  induction ps with
  | nil =>
    intro l hch _
    refine ⟨?_, by simp⟩
    rw [updateList_eq_map, List.any_eq_true]
    refine ⟨updateOne tid P upd it, List.mem_map_of_mem _ hch, ?_⟩
    rw [updateOne_target tid P upd hit]
    show (Perms.mk upd.view upd.download false).view = true
    exact hv
  | cons p0 rest ih =>
    intro l hch hps
    obtain ⟨hp0, hchrest⟩ := hch
    obtain ⟨hp0id, hp0any⟩ := hps p0 (List.mem_cons_self _ _)
    have hrest := ih p0.subItems hchrest (fun p hp => hps p (List.mem_cons_of_mem _ hp))
    have hview : (updateOne tid P upd p0).permissions.view = true := by
      rw [updateOne_parent tid P upd hp0id hp0any]
      show ((updateList tid P upd p0.subItems).any fun s => s.permissions.view) = true
      exact hrest.1
    refine ⟨?_, ?_⟩
    · rw [updateList_eq_map, List.any_eq_true]
      exact ⟨updateOne tid P upd p0, List.mem_map_of_mem _ hp0, hview⟩
    · intro p hp
      rcases List.mem_cons.mp hp with rfl | hp
      · exact hview
      · exact hrest.2 p hp

/-! ### Further helper lemmas -/

mutual
theorem allNodes_trans_one : ∀ (x y q : FileOrFolder),
    y ∈ allNodesOne x → q ∈ allNodesOne y → q ∈ allNodesOne x
  | .node i n subs p t d, y, q => by
    intro hy hq
    rw [allNodesOne_eq] at hy
    rcases List.mem_cons.mp hy with rfl | hy
    · exact hq
    · rw [allNodesOne_eq]
      exact List.mem_cons_of_mem _ (allNodes_trans_list subs y q hy hq)
theorem allNodes_trans_list : ∀ (l : List FileOrFolder) (y q : FileOrFolder),
    y ∈ allNodesList l → q ∈ allNodesOne y → q ∈ allNodesList l
  | [], y, q => by
    intro hy _
    simp [allNodesList] at hy
  | x :: xs, y, q => by
    intro hy hq
    have hshape : allNodesList (x :: xs) = allNodesOne x ++ allNodesList xs := rfl
    rw [hshape] at hy ⊢
    rcases List.mem_append.mp hy with hy | hy
    · exact List.mem_append.mpr (Or.inl (allNodes_trans_one x y q hy hq))
    · exact List.mem_append.mpr (Or.inr (allNodes_trans_list xs y q hy hq))
end

theorem or_absorb_right (a b : Bool) : ((a || b) || b) = (a || b) := by
  cases a <;> cases b <;> rfl

theorem not_and_or_right (a b : Bool) : (!(a && b) || b) = true := by
  cases a <;> cases b <;> rfl

theorem normalizeFlags_ok' (r : Flags) (pd : Bool) :
    (!(normalizeFlags r pd).download || (normalizeFlags r pd).view) = true := by
  cases r with
  | mk v dl => exact normalizeFlags_ok v dl pd

theorem normalizeFlags_view_true (r : Flags) (pd : Bool) (h : r.view = true) :
    (normalizeFlags r pd).view = true := by
  cases r with
  | mk v dl =>
    cases dl <;> cases pd <;> simp_all [normalizeFlags]

theorem head_mem_allNodes_updateList (tid : String) (P : List FileOrFolder) (upd : Flags)
    (x : FileOrFolder) (l : List FileOrFolder) :
    updateOne tid P upd x ∈ allNodesList (updateList tid P upd (x :: l)) := by
  have h1 : updateList tid P upd (x :: l) = updateOne tid P upd x :: updateList tid P upd l :=
    rfl
  rw [h1]
  exact mem_allNodesList_of_mem (List.mem_cons_self _ _)

theorem applyEdit_some_elim {tree : List FileOrFolder} {tid : String} {req : Flags}
    {t' : List FileOrFolder} {d : List (String × PendingEntry)}
    (h : applyEdit tree tid req = some (t', d)) :
    ∃ item parents, findItemAndParents tree tid = some (item, parents) ∧
      t' = updateList tid parents (normalizeFlags req item.permissions.download) tree ∧
      d = collectChanges (normalizeFlags req item.permissions.download) item parents := by
  cases hf : findItemAndParents tree tid with
  | none =>
    rw [applyEdit, hf] at h
    exact absurd h (by simp)
  | some r =>
    obtain ⟨item, parents⟩ := r
    rw [applyEdit, hf] at h
    simp only [Option.some.injEq, Prod.mk.injEq] at h
    exact ⟨item, parents, rfl, h.1.symm, h.2.symm⟩

theorem findItemAndParents_sound {tree : List FileOrFolder} {tid : String}
    {item : FileOrFolder} {parents : List FileOrFolder}
    (h : findItemAndParents tree tid = some (item, parents)) :
    item.id = tid ∧ AncestorChain item parents tree := by
  rw [findItemAndParents] at h
  obtain ⟨hid, ps', hps, hch⟩ := findInList_sound tid tree [] item parents h
  rw [List.nil_append] at hps
  subst hps
  exact ⟨hid, hch⟩

theorem usi_forall2 (v : Bool) (l : List FileOrFolder) :
    List.Forall₂ (fun oldN newN : FileOrFolder =>
      newN.id = oldN.id ∧ newN.permissions.view = v ∧
      newN.permissions.partialView = false ∧
      newN.permissions.download = (oldN.permissions.download && v))
      (allNodesList l) (allNodesList (updateSubItemsList v l)) := by
  rw [allNodes_usiList, List.forall₂_map_right_iff, List.forall₂_same]
  intro x _
  rw [updateSubItemsOne_id, updateSubItemsOne_perms]
  exact ⟨rfl, rfl, rfl, rfl⟩

/-! ### Claim theorems -/

/-- C1 counterexample: the claim quantifies over *any* tree, but an edit only
rewrites the target's subtree and ancestor chain.  In `treeBad` the untouched
node `docBbad` has `download = true, view = false` (such a tree is produced by
`buildTree` from an override `{canView: false, canDownload: true}`); after
editing the sibling `docA` the violating node is still there, so the post-edit
tree does not satisfy `download ⇒ view` at every node. -/
theorem c1_counterexample :
    (applyEdit treeBad aKey ⟨true, false⟩).map (fun r => invariantHolds r.1) = some false := by
  rfl

/-- C1 (amended): if every node of the pre-edit tree satisfies
`download ⇒ view`, then after any `applyEdit` edit every node of the
resulting tree still satisfies `download ⇒ view`.  (Nodes the edit touches
satisfy the invariant unconditionally; the hypothesis is needed only for
untouched nodes, which the edit leaves as they were.) -/
theorem c1_invariant_preserved (tree : List FileOrFolder) (tid : String) (req : Flags)
    (t' : List FileOrFolder) (d : List (String × PendingEntry))
    (hinv : invariantHolds tree = true)
    (h : applyEdit tree tid req = some (t', d)) : invariantHolds t' = true := by
  obtain ⟨item, parents, hf, ht', hd⟩ := applyEdit_some_elim h
  subst ht'
  rw [invariantHolds, List.all_eq_true]
  intro q hq
  rcases mem_updateList_provenance tid parents
      (normalizeFlags req item.permissions.download) tree q hq with
    ⟨x, hx, rfl⟩ | ⟨y, hy, hyid, x, hx, hq2⟩
  · by_cases h1 : x.id = tid
    · rw [updateOne_target tid parents (normalizeFlags req item.permissions.download) h1]
      exact normalizeFlags_ok' req item.permissions.download
    · by_cases h2 : (parents.any fun parent => parent.id == x.id) = true
      · rw [updateOne_parent tid parents (normalizeFlags req item.permissions.download) h1 h2]
        exact not_and_or_right _ _
      · have hval := invariant_mem hinv hx
        rw [updateOne_other tid parents (normalizeFlags req item.permissions.download) h1
          (Bool.not_eq_true _ ▸ h2)]
        exact hval
  · rcases hq2 with rfl | rfl
    · rw [updateSubItemsOne_perms (normalizeFlags req item.permissions.download).view x]
      exact not_and_or_right _ _
    · exact invariant_mem hinv (allNodes_trans_list tree y _ hy (mem_allNodesOne_of_sub hx))

/-- Witness for C1: a concrete invariant-respecting tree and edit, with the
hypotheses discharged at the concrete input. -/
theorem c1_witness :
    invariantHolds treeSingle = true ∧
    invariantHolds (updateList aKey [] ⟨true, false⟩ treeSingle) = true :=
  ⟨by decide,
    c1_invariant_preserved treeSingle aKey ⟨true, false⟩
      (updateList aKey [] ⟨true, false⟩ treeSingle)
      (collectChanges ⟨true, false⟩ docA []) (by decide) (by rfl)⟩

/-- C2 counterexample: an edit that requests the target's already-current
state leaves the tree unchanged — no node's `{view, download}` changed — yet
the diff still contains an entry (for the target), refuting “no entry for any
node whose `{view, download}` did not change”. -/
theorem c2_counterexample :
    applyEdit treeSingle aKey ⟨true, false⟩ =
      some (treeSingle, [(aKey, ⟨true, false, ItemType.DATAROOM_DOCUMENT⟩)]) := by
  rfl

/-- C2 (amended): the diff contains exactly one entry for the target, one per
descendant of the target, and one per ancestor on the path to the root — and
no others — regardless of whether each of those nodes' `{view, download}`
changed.  (Nodes outside the target's subtree and ancestor chain never get an
entry; nodes inside always do, changed or not.)  The key list is the target
id, then the descendant ids in depth-first order, then the ancestor ids
(root-first when the normalized view is on, leaf-first when it is off). -/
theorem c2_diff_keys (tree : List FileOrFolder) (tid : String) (req : Flags)
    (item : FileOrFolder) (parents : List FileOrFolder)
    (t' : List FileOrFolder) (d : List (String × PendingEntry))
    (hf : findItemAndParents tree tid = some (item, parents))
    (h : applyEdit tree tid req = some (t', d)) :
    d.map Prod.fst =
      tid :: (allNodesList item.subItems).map FileOrFolder.id ++
        (if (normalizeFlags req item.permissions.download).view then
          parents.map FileOrFolder.id
        else (parents.reverse).map FileOrFolder.id) := by
  obtain ⟨item', parents', hf', ht', hd⟩ := applyEdit_some_elim h
  rw [hf] at hf'
  injection hf' with hf'
  injection hf' with h1 h2
  subst h1
  subst h2
  have hid := (findItemAndParents_sound hf).1
  subst hd
  rw [collectChanges]
  rw [List.map_append, List.map_cons, collectSubList_keys]
  rw [hid]
  by_cases hv : (normalizeFlags req item.permissions.download).view = true
  · rw [if_pos hv, if_pos hv, List.map_map]
    rfl
  · rw [if_neg hv, if_neg hv, List.map_map]
    rfl

/-- Witness for C2 (amended), at a concrete nested tree and a revoking edit:
the diff keys are the target followed by its single ancestor. -/
theorem c2_witness :
    (collectChanges (normalizeFlags ⟨false, false⟩ docC.permissions.download)
        docC [folderF]).map Prod.fst =
      cKey :: (allNodesList docC.subItems).map FileOrFolder.id ++
        (if (normalizeFlags ⟨false, false⟩ docC.permissions.download).view then
          [folderF].map FileOrFolder.id
        else ([folderF].reverse).map FileOrFolder.id) :=
  c2_diff_keys treeNested cKey ⟨false, false⟩ docC [folderF]
    (updateList cKey [folderF] (normalizeFlags ⟨false, false⟩ docC.permissions.download)
      treeNested)
    (collectChanges (normalizeFlags ⟨false, false⟩ docC.permissions.download) docC [folderF])
    (by rfl) (by rfl)

/-- C3 counterexample: applying the same `requestedFlags` to the same target
twice — the second call on the tree the first call produced — yields a
*non-empty* diff on the second call (the target entry is always emitted),
refuting both “the second call yields an empty diff” and “an edit requesting
the already-current state produces an empty diff”. -/
theorem c3_counterexample :
    ((applyEdit treeSingle aKey ⟨true, false⟩).bind
      (fun r => applyEdit r.1 aKey ⟨true, false⟩)).map (fun r => r.2.isEmpty) =
      some false := by
  rfl

/-- C3 (amended): whenever the target id is found, the diff is never empty —
its first entry is always keyed by the target itself, even when the requested
state equals the target's current state. -/
theorem c3_diff_nonempty (tree : List FileOrFolder) (tid : String) (req : Flags)
    (t' : List FileOrFolder) (d : List (String × PendingEntry))
    (h : applyEdit tree tid req = some (t', d)) :
    d ≠ [] ∧ d.head?.map Prod.fst = some tid := by
  obtain ⟨item, parents, hf, ht', hd⟩ := applyEdit_some_elim h
  have hid := (findItemAndParents_sound hf).1
  subst hd
  constructor
  · rw [collectChanges]
    simp
  · rw [collectChanges]
    simp [hid]

/-- Witness for C3 (amended) at a concrete identity edit. -/
theorem c3_witness :
    (collectChanges ⟨true, false⟩ docA []) ≠ [] ∧
    (collectChanges ⟨true, false⟩ docA []).head?.map Prod.fst = some aKey :=
  c3_diff_nonempty treeSingle aKey ⟨true, false⟩
    (updateList aKey [] ⟨true, false⟩ treeSingle)
    (collectChanges ⟨true, false⟩ docA []) (by rfl)

/-- C4: the normalization rules of `updatePermissions`: (i) if the requested
view is `false` and the target's previous download is `true`, the applied
download is forced to `false` (view unchanged); (ii) otherwise, if download is
requested without view, the applied view is forced to `true`; and (iii) the
normalization happens before any propagation — the tree rewrite and the diff
are computed from the normalized flags. -/
theorem c4_normalization :
    (∀ dl : Bool, normalizeFlags ⟨false, dl⟩ true = ⟨false, false⟩) ∧
    (normalizeFlags ⟨false, true⟩ false = ⟨true, true⟩) ∧
    (∀ (tree : List FileOrFolder) (tid : String) (req : Flags) (item : FileOrFolder)
      (parents : List FileOrFolder), findItemAndParents tree tid = some (item, parents) →
      applyEdit tree tid req =
        some (updateList tid parents (normalizeFlags req item.permissions.download) tree,
          collectChanges (normalizeFlags req item.permissions.download) item parents)) := by
  refine ⟨by decide, by decide, ?_⟩
  intro tree tid req item parents hf
  rw [applyEdit, hf]

/-- Witness for C4's third conjunct at a concrete tree. -/
theorem c4_witness :
    applyEdit treeNested cKey ⟨false, false⟩ =
      some (updateList cKey [folderF]
          (normalizeFlags ⟨false, false⟩ docC.permissions.download) treeNested,
        collectChanges (normalizeFlags ⟨false, false⟩ docC.permissions.download)
          docC [folderF]) :=
  c4_normalization.2.2 treeNested cKey ⟨false, false⟩ docC [folderF] (by rfl)

/-- C5: when the target of an edit is a folder, downward propagation sets
every descendant's `view` to the target's new normalized view value, forces
`partialView := false`, and sets `download := previousDownload AND newView`;
in particular a normalized `view = false` forces `⟨false, false, false⟩` on
every descendant.  The target itself carries exactly the normalized pair with
`partialView = false`.  Stated for trees with globally unique node ids (the
source's ids come from the database and are unique). -/
theorem c5_folder_downward (tree : List FileOrFolder) (tid : String) (req : Flags)
    (item : FileOrFolder) (parents : List FileOrFolder)
    (t' : List FileOrFolder) (d : List (String × PendingEntry))
    (hnd : List.Nodup ((allNodesList tree).map FileOrFolder.id))
    (hf : findItemAndParents tree tid = some (item, parents))
    (hfold : item.itemType = ItemType.DATAROOM_FOLDER)
    (h : applyEdit tree tid req = some (t', d)) :
    ∀ q ∈ allNodesList t', q.id = tid →
      q.permissions = ⟨(normalizeFlags req item.permissions.download).view,
        (normalizeFlags req item.permissions.download).download, false⟩ ∧
      List.Forall₂ (fun oldN newN : FileOrFolder =>
        newN.id = oldN.id ∧
        newN.permissions.view = (normalizeFlags req item.permissions.download).view ∧
        newN.permissions.partialView = false ∧
        newN.permissions.download =
          (oldN.permissions.download && (normalizeFlags req item.permissions.download).view))
        (allNodesList item.subItems) (allNodesList q.subItems) ∧
      ((normalizeFlags req item.permissions.download).view = false →
        ∀ x ∈ allNodesList q.subItems, x.permissions = ⟨false, false, false⟩) := by
  obtain ⟨item', parents', hf', ht', hd⟩ := applyEdit_some_elim h
  rw [hf] at hf'
  injection hf' with hf'
  injection hf' with he1 he2
  rw [← he1, ← he2] at ht'
  obtain ⟨hid, hch⟩ := findItemAndParents_sound hf
  subst ht'
  have hitem_mem : item ∈ allNodesList tree := chain_mem_it hch
  intro q hq hqid
  rcases mem_updateList_provenance tid parents
      (normalizeFlags req item.permissions.download) tree q hq with
    ⟨x, hx, rfl⟩ | ⟨y, hy, hyid, x, hx, hq2⟩
  · have hxid : x.id = tid :=
      (updateOne_id tid parents (normalizeFlags req item.permissions.download) x).symm.trans
        hqid
    have hx_item : x = item := nodup_nodes_inj hnd hx hitem_mem (hxid.trans hid.symm)
    rw [hx_item, updateOne_target tid parents (normalizeFlags req item.permissions.download) hid]
    refine ⟨rfl, ?_, ?_⟩
    · simp only [FileOrFolder.subItems]
      rw [if_pos hfold]
      exact usi_forall2 _ _
    · intro hv x' hx'
      simp only [FileOrFolder.subItems] at hx'
      rw [if_pos hfold, allNodes_usiList] at hx'
      obtain ⟨x0, hx0, rfl⟩ := List.mem_map.mp hx'
      rw [updateSubItemsOne_perms, hv, Bool.and_false]
  · exfalso
    have hy_item : y = item := nodup_nodes_inj hnd hy hitem_mem (hyid.trans hid.symm)
    rw [hy_item] at hx
    rcases hq2 with rfl | rfl
    · have hxid : x.id = tid :=
        (updateSubItemsOne_id (normalizeFlags req item.permissions.download).view x).symm.trans
          hqid
      have hx_tree : x ∈ allNodesList tree :=
        allNodes_trans_list tree item x hitem_mem (mem_allNodesOne_of_sub hx)
      have hx_item : x = item := nodup_nodes_inj hnd hx_tree hitem_mem (hxid.trans hid.symm)
      rw [hx_item] at hx
      exact not_mem_own_sub item hx
    · have hq_tree : q ∈ allNodesList tree :=
        allNodes_trans_list tree item q hitem_mem (mem_allNodesOne_of_sub hx)
      have hq_item : q = item := nodup_nodes_inj hnd hq_tree hitem_mem (hqid.trans hid.symm)
      rw [hq_item] at hx
      exact not_mem_own_sub item hx

/-- Witness for C5: revoking view on the folder `folderF` (which previously
had download) leaves the folder with `⟨false, false, false⟩`. -/
theorem c5_witness :
    (updateOne fKey [] (normalizeFlags ⟨false, false⟩ folderF.permissions.download)
        folderF).permissions =
      ⟨(normalizeFlags ⟨false, false⟩ folderF.permissions.download).view,
        (normalizeFlags ⟨false, false⟩ folderF.permissions.download).download, false⟩ :=
  (c5_folder_downward treeNested fKey ⟨false, false⟩ folderF []
    (updateList fKey [] (normalizeFlags ⟨false, false⟩ folderF.permissions.download)
      treeNested)
    (collectChanges (normalizeFlags ⟨false, false⟩ folderF.permissions.download) folderF [])
    (by decide) (by rfl) (by rfl) (by rfl)
    (updateOne fKey [] (normalizeFlags ⟨false, false⟩ folderF.permissions.download) folderF)
    (head_mem_allNodes_updateList fKey []
      (normalizeFlags ⟨false, false⟩ folderF.permissions.download) folderF [])
    (by rfl)).1

/-- C6: upward propagation recomputes every ancestor on the path from the
target to the root purely from its already-updated child set — `view =
any(child.view)` (the ancestor's own explicit grant is not re-asserted),
`partialView = any(child.view) AND NOT all(child.view)`, `download =
previousDownload AND view` — and consequently a requested `view = true` on a
nested item forces `view = true` on the target and every ancestor up to the
root.  Stated for trees with globally unique node ids. -/
theorem c6_upward (tree : List FileOrFolder) (tid : String) (req : Flags)
    (item : FileOrFolder) (parents : List FileOrFolder)
    (t' : List FileOrFolder) (d : List (String × PendingEntry))
    (hnd : List.Nodup ((allNodesList tree).map FileOrFolder.id))
    (hf : findItemAndParents tree tid = some (item, parents))
    (h : applyEdit tree tid req = some (t', d)) :
    (∀ q ∈ allNodesList t', ∀ p ∈ parents, q.id = p.id →
      q.permissions.view = q.subItems.any (fun s => s.permissions.view) ∧
      q.permissions.partialView =
        (q.subItems.any (fun s => s.permissions.view) &&
          !(q.subItems.all (fun s => s.permissions.view))) ∧
      q.permissions.download =
        (p.permissions.download && q.subItems.any (fun s => s.permissions.view))) ∧
    (req.view = true → ∀ q ∈ allNodesList t',
      (q.id = tid ∨ ∃ p ∈ parents, q.id = p.id) → q.permissions.view = true) := by
  obtain ⟨item', parents', hf', ht', hd⟩ := applyEdit_some_elim h
  rw [hf] at hf'
  injection hf' with hf'
  injection hf' with he1 he2
  rw [← he1, ← he2] at ht'
  obtain ⟨hid, hch⟩ := findItemAndParents_sound hf
  subst ht'
  have hitem_mem : item ∈ allNodesList tree := chain_mem_it hch
  have hp_mem : ∀ p ∈ parents, p ∈ allNodesList tree := fun p hp => chain_mem_parent hch hp
  have hp_ne : ∀ p ∈ parents, ¬p.id = tid := by
    intro p hp he
    have hpi : p = item := nodup_nodes_inj hnd (hp_mem p hp) hitem_mem (he.trans hid.symm)
    have hlt := chain_count hch hp
    rw [hpi] at hlt
    exact lt_irrefl _ hlt
  have hp_any : ∀ p ∈ parents, (parents.any fun parent => parent.id == p.id) = true :=
    fun p hp => List.any_eq_true.mpr ⟨p, hp, by simp⟩
  have hloc : ∀ q ∈ allNodesList (updateList tid parents
      (normalizeFlags req item.permissions.download) tree), ∀ p ∈ parents, q.id = p.id →
      q = updateOne tid parents (normalizeFlags req item.permissions.download) p := by
    intro q hq p hp hqp
    rcases mem_updateList_provenance tid parents
        (normalizeFlags req item.permissions.download) tree q hq with
      ⟨x, hx, rfl⟩ | ⟨y, hy, hyid, x, hx, hq2⟩
    · have hxid : x.id = p.id :=
        (updateOne_id tid parents (normalizeFlags req item.permissions.download) x).symm.trans
          hqp
      have hxp : x = p := nodup_nodes_inj hnd hx (hp_mem p hp) hxid
      rw [hxp]
    · exfalso
      have hy_item : y = item := nodup_nodes_inj hnd hy hitem_mem (hyid.trans hid.symm)
      rw [hy_item] at hx
      rcases hq2 with rfl | rfl
      · have hxid : x.id = p.id :=
          (updateSubItemsOne_id (normalizeFlags req item.permissions.download).view
            x).symm.trans hqp
        have hx_tree : x ∈ allNodesList tree :=
          allNodes_trans_list tree item x hitem_mem (mem_allNodesOne_of_sub hx)
        have hxp : x = p := nodup_nodes_inj hnd hx_tree (hp_mem p hp) hxid
        have h1 := count_lt_sub hx
        have h2 := chain_count hch hp
        rw [hxp] at h1
        omega
      · have hq_tree : q ∈ allNodesList tree :=
          allNodes_trans_list tree item q hitem_mem (mem_allNodesOne_of_sub hx)
        have hqp' : q = p := nodup_nodes_inj hnd hq_tree (hp_mem p hp) hqp
        have h1 := count_lt_sub hx
        have h2 := chain_count hch hp
        rw [hqp'] at h1
        omega
  have hloct : ∀ q ∈ allNodesList (updateList tid parents
      (normalizeFlags req item.permissions.download) tree), q.id = tid →
      q = updateOne tid parents (normalizeFlags req item.permissions.download) item := by
    intro q hq hqid
    rcases mem_updateList_provenance tid parents
        (normalizeFlags req item.permissions.download) tree q hq with
      ⟨x, hx, rfl⟩ | ⟨y, hy, hyid, x, hx, hq2⟩
    · have hxid : x.id = tid :=
        (updateOne_id tid parents (normalizeFlags req item.permissions.download) x).symm.trans
          hqid
      have hx_item : x = item := nodup_nodes_inj hnd hx hitem_mem (hxid.trans hid.symm)
      rw [hx_item]
    · exfalso
      have hy_item : y = item := nodup_nodes_inj hnd hy hitem_mem (hyid.trans hid.symm)
      rw [hy_item] at hx
      rcases hq2 with rfl | rfl
      · have hxid : x.id = tid :=
          (updateSubItemsOne_id (normalizeFlags req item.permissions.download).view
            x).symm.trans hqid
        have hx_tree : x ∈ allNodesList tree :=
          allNodes_trans_list tree item x hitem_mem (mem_allNodesOne_of_sub hx)
        have hx_item : x = item := nodup_nodes_inj hnd hx_tree hitem_mem (hxid.trans hid.symm)
        rw [hx_item] at hx
        exact not_mem_own_sub item hx
      · have hq_tree : q ∈ allNodesList tree :=
          allNodes_trans_list tree item q hitem_mem (mem_allNodesOne_of_sub hx)
        have hq_item : q = item := nodup_nodes_inj hnd hq_tree hitem_mem (hqid.trans hid.symm)
        rw [hq_item] at hx
        exact not_mem_own_sub item hx
  constructor
  · intro q hq p hp hqp
    rw [hloc q hq p hp hqp,
      updateOne_parent tid parents (normalizeFlags req item.permissions.download)
        (hp_ne p hp) (hp_any p hp)]
    exact ⟨rfl, rfl, rfl⟩
  · intro hreq q hq hcase
    have hnv : (normalizeFlags req item.permissions.download).view = true :=
      normalizeFlags_view_true req item.permissions.download hreq
    rcases hcase with hqt | ⟨p, hp, hqp⟩
    · rw [hloct q hq hqt,
        updateOne_target tid parents (normalizeFlags req item.permissions.download) hid]
      exact hnv
    · rw [hloc q hq p hp hqp]
      exact (chain_view_true tid parents (normalizeFlags req item.permissions.download)
        item hid hnv parents tree hch
        (fun p' hp' => ⟨hp_ne p' hp', hp_any p' hp'⟩)).2 p hp

/-- Witness for C6: granting view (and download) on the nested document
`docC` forces `view = true` on its ancestor folder. -/
theorem c6_witness :
    (updateOne cKey [folderF] (normalizeFlags ⟨true, true⟩ docC.permissions.download)
        folderF).permissions.view = true :=
  (c6_upward treeNested cKey ⟨true, true⟩ docC [folderF]
    (updateList cKey [folderF] (normalizeFlags ⟨true, true⟩ docC.permissions.download)
      treeNested)
    (collectChanges (normalizeFlags ⟨true, true⟩ docC.permissions.download) docC [folderF])
    (by decide) (by rfl) (by rfl)).2 (by rfl)
    (updateOne cKey [folderF] (normalizeFlags ⟨true, true⟩ docC.permissions.download) folderF)
    (head_mem_allNodes_updateList cKey [folderF]
      (normalizeFlags ⟨true, true⟩ docC.permissions.download) folderF [])
    (Or.inr ⟨folderF, List.mem_cons_self _ _, by rfl⟩)

/-- C7: the tree builder computes each document's state directly from its
override (with `partialView` false — third conjunct — and an absent override
defaulting to `{view: false, download: false}` — second conjunct), and each
folder's state as `view = override.view OR any(child.view)`,
`partialView = any(child.view) AND NOT all(child.view)`, with `download`
taken from the folder's own override alone. -/
theorem c7_buildTree_states :
    (∀ (fuel : Nat) (items : List RawItem) (perms : List ViewerGroupAccessControls)
      (pid : Option String), ∀ q ∈ allNodesList (buildTree fuel items perms pid),
      (q.itemType = ItemType.DATAROOM_DOCUMENT →
        q.permissions = getPermissions perms q.id) ∧
      (q.itemType = ItemType.DATAROOM_FOLDER →
        q.permissions.view =
          ((getPermissions perms q.id).view || q.subItems.any (fun s => s.permissions.view)) ∧
        q.permissions.partialView =
          (q.subItems.any (fun s => s.permissions.view) &&
            !(q.subItems.all (fun s => s.permissions.view))) ∧
        q.permissions.download = (getPermissions perms q.id).download)) ∧
    (∀ (perms : List ViewerGroupAccessControls) (id : String),
      perms.find? (fun p => p.itemId == id) = none →
      getPermissions perms id = ⟨false, false, false⟩) ∧
    (∀ (perms : List ViewerGroupAccessControls) (id : String),
      (getPermissions perms id).partialView = false) := by
  refine ⟨?_, ?_, ?_⟩
  · intro fuel
    induction fuel with
    | zero =>
      intro items perms pid q hq
      simp [buildTree, allNodesList] at hq
    | succ fuel ih =>
      intro items perms pid q hq
      simp only [buildTree] at hq
      rw [allNodesList_append, List.mem_append] at hq
      rcases hq with hq | hq
      · rcases mem_allNodesList_iff.mp hq with ⟨fn, hfn, hqfn⟩
        rcases List.mem_map.mp hfn with ⟨folder, _, rfl⟩
        rw [allNodesOne_eq] at hqfn
        rcases List.mem_cons.mp hqfn with rfl | hqsub
        · constructor
          · intro hdoc
            exact absurd hdoc (by simp [FileOrFolder.itemType])
          · intro _
            exact ⟨or_absorb_right _ _, rfl, rfl⟩
        · simp only [FileOrFolder.subItems] at hqsub
          rw [allNodesList_append, List.mem_append] at hqsub
          rcases hqsub with hqsub | hqsub
          · exact ih items perms (some folder.id) q hqsub
          · rcases mem_allNodesList_iff.mp hqsub with ⟨dn, hdn, hqdn⟩
            rcases List.mem_map.mp hdn with ⟨doc, _, rfl⟩
            rw [allNodesOne_eq] at hqdn
            rcases List.mem_cons.mp hqdn with rfl | habs
            · constructor
              · intro _
                rfl
              · intro hfold
                exact absurd hfold (by simp [FileOrFolder.itemType])
            · exact absurd habs (by simp [FileOrFolder.subItems, allNodesList])
      · rcases mem_allNodesList_iff.mp hq with ⟨dn, hdn, hqdn⟩
        rcases List.mem_map.mp hdn with ⟨doc, _, rfl⟩
        rw [allNodesOne_eq] at hqdn
        rcases List.mem_cons.mp hqdn with rfl | habs
        · constructor
          · intro _
            rfl
          · intro hfold
            exact absurd hfold (by simp [FileOrFolder.itemType])
        · exact absurd habs (by simp [FileOrFolder.subItems, allNodesList])
  · intro perms id h
    simp only [getPermissions, h]
  · intro perms id
    simp only [getPermissions]
    split <;> rfl

/-- Witness for C7: the folder aggregation equation at the concretely built
tree `buildTree 2 rawItems permsFixture none`. -/
theorem c7_witness :
    builtFolderNode.permissions.view =
      ((getPermissions permsFixture builtFolderNode.id).view ||
        builtFolderNode.subItems.any (fun s => s.permissions.view)) :=
  ((c7_buildTree_states.1 2 rawItems permsFixture none builtFolderNode
    (by rw [show buildTree 2 rawItems permsFixture none = [builtFolderNode, builtRootDoc]
          from rfl]
        exact mem_allNodesList_of_mem (List.mem_cons_self _ _))).2 rfl).1

/-- C8 counterexample: when the gateway reports failure the flushed batch is
*still present* in the pending map — nothing was ever removed at flush time —
contradicting the claim that the batch is not in the pending map afterwards
(“the engine considers it lost”).  In the source a later edit re-triggers the
debounce and re-sends these retained entries. -/
theorem c8_counterexample :
    (saveChanges false [(aKey, pendA)]).1 = [(aKey, pendA)] ∧
    (aKey, pendA) ∈ (saveChanges false [(aKey, pendA)]).1 := by
  exact ⟨rfl, List.mem_cons_self _ _⟩

/-- C8 (amended): the pending map is cleared exactly when the flush response
is successful (or the map was already empty); on failure the pending map is
left exactly as it was, so the flushed entries remain pending; and the
success notice fires exactly on a successful response.  No retry is modelled
because the handler issues none. -/
theorem c8_pending_behavior (ok : Bool) (pending : List (String × PendingEntry)) :
    ((saveChanges ok pending).1 = [] ↔ (ok = true ∨ pending = [])) ∧
    (ok = false → (saveChanges ok pending).1 = pending) ∧
    (saveChanges ok pending).2 = ok := by
  cases ok <;> simp [saveChanges]

/-- Witness for C8 (amended): a failed flush leaves the concrete pending map
unchanged. -/
theorem c8_witness : (saveChanges false [(aKey, pendA)]).1 = [(aKey, pendA)] :=
  (c8_pending_behavior false [(aKey, pendA)]).2.1 rfl

/-- C9: an edit whose target id occurs nowhere in the tree is exactly the
`none` outcome of `applyEdit` — the source's silent early `return` before any
tree rewrite or diff collection, so the tree is unchanged and no pending
change is recorded; the `none` result is the `NotFound` signal of the
embedding. -/
theorem c9_missing_target (tree : List FileOrFolder) (tid : String) (req : Flags) :
    applyEdit tree tid req = none ↔ ∀ q ∈ allNodesList tree, ¬q.id = tid := by
  cases hf : findItemAndParents tree tid with
  | none =>
    rw [applyEdit, hf]
    have hnone : findInList tid [] tree = none := hf
    exact iff_of_true rfl ((findInList_none_iff tid tree []).mp hnone)
  | some r =>
    obtain ⟨item, parents⟩ := r
    rw [applyEdit, hf]
    refine iff_of_false (by simp) ?_
    intro hall
    have hnone : findInList tid [] tree = none :=
      (findInList_none_iff tid tree []).mpr hall
    have : findItemAndParents tree tid = none := hnone
    rw [hf] at this
    exact absurd this (by simp)

/-- Witness for C9: a concrete absent id. -/
theorem c9_witness : applyEdit treeSingle zKey ⟨true, false⟩ = none :=
  (c9_missing_target treeSingle zKey ⟨true, false⟩).mpr (by decide)

/-- C10: an edit changes only the permission fields — every node's id, name,
item type, document reference, and the set and order of its children are the
same before and after, witnessed by equality of the permission-erased
skeletons of the two trees. -/
theorem c10_skeleton_preserved (tree : List FileOrFolder) (tid : String) (req : Flags)
    (t' : List FileOrFolder) (d : List (String × PendingEntry))
    (h : applyEdit tree tid req = some (t', d)) : skelList t' = skelList tree := by
  obtain ⟨item, parents, hf, ht', hd⟩ := applyEdit_some_elim h
  subst ht'
  exact skel_updateList tid parents _ tree

/-- Witness for C10 at a concrete folder edit. -/
theorem c10_witness :
    skelList (updateList fKey []
      (normalizeFlags ⟨false, false⟩ folderF.permissions.download) treeNested) =
      skelList treeNested :=
  c10_skeleton_preserved treeNested fKey ⟨false, false⟩
    (updateList fKey [] (normalizeFlags ⟨false, false⟩ folderF.permissions.download)
      treeNested)
    (collectChanges (normalizeFlags ⟨false, false⟩ folderF.permissions.download) folderF [])
    (by rfl)
